import Mathlib

/-!
Verification development for vklearn's TrimNetX detection model
(`src/vklearn/models/trimnetx.py`).

The tensor computations of the model are embedded shallowly:
elementwise tensor operations become functions on finite index types,
float arithmetic becomes exact arithmetic over `ℚ` where the source only
compares and divides (anchor selection, grid-cell assignment, letterbox
geometry), and over `ℝ` where the source uses transcendental functions
(sigmoid, log, exp, tanh, cos).  Boolean tensor masks become `Finset`s
over the flattened grid index.
-/

namespace TrimNetX

/-- Truncation toward zero: the semantics of `.type(torch.int64)` applied to a
float tensor in `_select_row` / `_select_column`. -/
def truncQ (q : ℚ) : ℤ := if 0 ≤ q then ⌊q⌋ else ⌈q⌉

/-- Round half to even, the semantics of Python's built-in `round` on a float
(used by `_detect_preprocess` for `dst_w` / `dst_h`). -/
def roundHalfEven (q : ℚ) : ℤ :=
  if q - ⌊q⌋ < 1/2 then ⌊q⌋
  else if 1/2 < q - ⌊q⌋ then ⌊q⌋ + 1
  else if ⌊q⌋ % 2 = 0 then ⌊q⌋ else ⌊q⌋ + 1

/-- Geometry computed by `TrimNetX._detect_preprocess` (trimnetx.py lines
194-217): the rounded-up frame size, the scale factor, the rounded resize
dimensions and the paste offsets. -/
structure PreprocessOut where
  aligned : ℕ
  scale   : ℚ
  dstW    : ℤ
  dstH    : ℤ
  padX    : ℤ
  padY    : ℤ

/-- Embedding of `_detect_preprocess`:
`_align_size = math.ceil(align_size / 64) * 64`;
`scale = min(1, _align_size / max(src_w, src_h))`;
`dst_w, dst_h = round(scale * src_w), round(scale * src_h)`;
`pad_x = (align_size - dst_w) // 2`; `pad_y = (align_size - dst_h) // 2`.
Note the source computes the paste offsets from the raw `align_size`, while
the frame is `_align_size` by `_align_size`. -/
def detectPreprocess (alignSize srcW srcH : ℕ) : PreprocessOut :=
  let aligned := ((alignSize + 63) / 64) * 64
  let scale : ℚ := min 1 ((aligned : ℚ) / ((max srcW srcH : ℕ) : ℚ))
  let dstW := roundHalfEven (scale * srcW)
  let dstH := roundHalfEven (scale * srcH)
  { aligned := aligned
    scale := scale
    dstW := dstW
    dstH := dstH
    padX := Int.fdiv ((alignSize : ℤ) - dstW) 2
    padY := Int.fdiv ((alignSize : ℤ) - dstH) 2 }

/-- The resized image, pasted at `(pad_x, pad_y)`, lies entirely inside the
`_align_size` × `_align_size` frame (PIL clips anything pasted outside). -/
def letterboxContained (alignSize srcW srcH : ℕ) : Prop :=
  0 ≤ (detectPreprocess alignSize srcW srcH).padX ∧
  (detectPreprocess alignSize srcW srcH).padX + (detectPreprocess alignSize srcW srcH).dstW ≤
    ((detectPreprocess alignSize srcW srcH).aligned : ℤ) ∧
  0 ≤ (detectPreprocess alignSize srcW srcH).padY ∧
  (detectPreprocess alignSize srcW srcH).padY + (detectPreprocess alignSize srcW srcH).dstH ≤
    ((detectPreprocess alignSize srcW srcH).aligned : ℤ)

/-- Width/height IoU of a box `(w, h)` against an anchor `(aw, ah)` with both
centered at the same point, exactly as `_select_anchor` computes it
(trimnetx.py lines 563-574): intersection `min w aw * min h ah`, union
`w * h + aw * ah - intersection`. -/
def whIoU (w h aw ah : ℚ) : ℚ :=
  (min w aw * min h ah) / (w * h + aw * ah - min w aw * min h ah)

/-- First-occurrence argmax of a list, returning the index and the value:
the semantics of `torch.argmax`, which returns the index of the first
maximal value.  Ties are won by the earlier element (`v > x` is required to
prefer the tail's maximum over the head). -/
def argmaxPair {α : Type} [LinearOrder α] : List α → Option (ℕ × α)
  | [] => none
  | x :: xs =>
    match argmaxPair xs with
    | none => some (0, x)
    | some (j, v) => if v > x then some (j + 1, v) else some (0, x)

/-- Embedding of `_select_anchor` for one box of size `(w, h)`: the index of
the first anchor maximizing the width/height IoU. -/
def selectAnchor (anchors : List (ℚ × ℚ)) (w h : ℚ) : ℕ :=
  match argmaxPair (anchors.map fun a => whIoU w h a.1 a.2) with
  | some (i, _) => i
  | none => 0

/-- Embedding of `_select_row` (trimnetx.py lines 576-584) for one box with
vertical extent `[y1, y2]`.  `u` models the draw of `torch.rand_like`, a
uniform sample in `[0, 1)`; the source forms `noise = u * cell - cell / 2`
and zeroes it whenever the box height is below `2 * cell`. -/
def selectRow (u y1 y2 cellSize : ℚ) : ℤ :=
  let cy := (y1 + y2) * (1/2)
  let noise := if y2 - y1 < 2 * cellSize then 0 else u * cellSize - cellSize / 2
  truncQ ((cy + noise) / cellSize)

/-- Embedding of `_select_column` (trimnetx.py lines 586-594), identical to
`selectRow` with the horizontal coordinates. -/
def selectColumn (u x1 x2 cellSize : ℚ) : ℤ :=
  let cx := (x1 + x2) * (1/2)
  let noise := if x2 - x1 < 2 * cellSize then 0 else u * cellSize - cellSize / 2
  truncQ ((cx + noise) / cellSize)

/-- `torch.sigmoid`. -/
noncomputable def sigmoid (x : ℝ) : ℝ := 1 / (1 + Real.exp (-x))

/-- One element of `F.binary_cross_entropy_with_logits`:
`-(t * log σ(z) + (1 - t) * log (1 - σ(z)))`. -/
noncomputable def bceWithLogits (z t : ℝ) : ℝ :=
  -(t * Real.log (sigmoid z) + (1 - t) * Real.log (1 - sigmoid z))

/-- One element of torchvision's `sigmoid_focal_loss` with its default
parameters `alpha = 0.25`, `gamma = 2`:
`p = σ(z)`, `ce = bce_with_logits(z, t)`, `p_t = p t + (1 - p)(1 - t)`,
`loss = (alpha t + (1 - alpha)(1 - t)) * ce * (1 - p_t)^2`. -/
noncomputable def sigmoidFocal (z t : ℝ) : ℝ :=
  let p := sigmoid z
  let ce := bceWithLogits z t
  let pt := p * t + (1 - p) * (1 - t)
  (0.25 * t + 0.75 * (1 - t)) * (ce * (1 - pt) ^ 2)

/-- `Tensor.numel` of a 0-dimensional tensor: always `1`, regardless of the
value held.  In `focal_boost` the expression
`(sampled_targ.sum() / len(pred_conf)).numel()` is the `numel` of the
0-dimensional tensor `sampled_targ.sum() / len(pred_conf)`. -/
def scalarNumel (_ : ℝ) : ℕ := 1

/-- The triple returned by `TrimNetX.focal_boost` (trimnetx.py lines
327-367): the combined confidence loss for the round, the masked focal loss
alone, and the sample mask handed to the next round.  The boolean tensor
masks of the source are `Finset`s over the flattened
(batch, anchor, row, col) index `Fin N`. -/
structure FocalBoostOut (N : ℕ) where
  confLoss : ℝ
  sampledLoss : ℝ
  sampleMask : Finset (Fin N)

open Classical in
/-- Embedding of `TrimNetX.focal_boost`.  `inputs i k` is the raw output
tensor at flattened grid location `i`, channel `k`; `pred_conf` is channel
`confId`.  `T` is `len(self.predict_conf_tries)` (= `num_tries`), and
`batchLen` is `len(pred_conf)`, the batch size.  `targ_conf` is 1 on
`targetIndex` and 0 elsewhere, so `targ_conf > 0.5` is membership in
`targetIndex` and the `sample_mask = targ_conf >= -1` default is the full
grid.  When true positives survive inside the mask, the next round's mask
is `pred_conf >= obj_pred.min()` computed over the whole grid. -/
noncomputable def focalBoost (N T batchLen : ℕ) (inputs : Fin N → ℕ → ℝ)
    (targetIndex : Finset (Fin N)) (sampleMaskIn : Option (Finset (Fin N)))
    (confId : ℕ) : FocalBoostOut N :=
  let predConf : Fin N → ℝ := fun i => inputs i confId
  let targConf : Fin N → ℝ := fun i => if i ∈ targetIndex then 1 else 0
  let sampleMask := sampleMaskIn.getD Finset.univ
  let sampledLoss :=
    (sampleMask.sum fun i => sigmoidFocal (predConf i) (targConf i)) / (sampleMask.card : ℝ)
  let objMask := sampleMask ∩ targetIndex
  let objData : ℝ × Finset (Fin N) :=
    if h : objMask.Nonempty then
      ((objMask.sum fun i => bceWithLogits (predConf i) (targConf i)) / (objMask.card : ℝ),
        Finset.univ.filter fun i => objMask.inf' h predConf ≤ predConf i)
    else
      (0, sampleMask)
  let alpha := (Real.cos (Real.pi / (T : ℝ) * (confId : ℝ)) + 1) / 2
  let numForegroundPerImg : ℕ :=
    scalarNumel ((sampleMask.sum fun i => targConf i) / (batchLen : ℝ))
  { confLoss := objData.1 * alpha / ((max 1 numForegroundPerImg : ℕ) : ℝ) + sampledLoss
    sampledLoss := sampledLoss
    sampleMask := objData.2 }

/-- The multi-round confidence chain of `calc_loss` (trimnetx.py lines
395-400).  `confChain ... k` is the state after round `k`: the accumulated
`conf_loss`, the last round's `sampled_loss`, and the sample mask the next
round will use (round 0 is called with `None`). -/
noncomputable def confChain (N T batchLen : ℕ) (inputs : Fin N → ℕ → ℝ)
    (targetIndex : Finset (Fin N)) : ℕ → ℝ × ℝ × Finset (Fin N)
  | 0 =>
    ((focalBoost N T batchLen inputs targetIndex none 0).confLoss,
      (focalBoost N T batchLen inputs targetIndex none 0).sampledLoss,
      (focalBoost N T batchLen inputs targetIndex none 0).sampleMask)
  | k + 1 =>
    let prev := confChain N T batchLen inputs targetIndex k
    let r := focalBoost N T batchLen inputs targetIndex (some prev.2.2) (k + 1)
    (prev.1 + r.confLoss, r.sampledLoss, r.sampleMask)

/-- A box in `xyxy` corner format. -/
structure BoxXYXY where
  x1 : ℝ
  y1 : ℝ
  x2 : ℝ
  y2 : ℝ

/-- Embedding of `TrimNetX.pred2boxes` (trimnetx.py lines 369-381) for one
target entry, followed by the `box_convert(..., 'cxcywh', 'xyxy')` step:
center `(tanh dx + 0.5 + col) * cell_size`, size `exp dw * anchor_w` (and
likewise for y / height), then corner coordinates. -/
noncomputable def pred2boxes (cellSize : ℝ) (anchors : ℕ → ℝ × ℝ)
    (dx dy dw dh : ℝ) (anchorId : ℕ) (row col : ℤ) : BoxXYXY :=
  let cx := (Real.tanh dx + 0.5 + (col : ℝ)) * cellSize
  let cy := (Real.tanh dy + 0.5 + (row : ℝ)) * cellSize
  let w := Real.exp dw * (anchors anchorId).1
  let h := Real.exp dh * (anchors anchorId).2
  { x1 := cx - w / 2, y1 := cy - h / 2, x2 := cx + w / 2, y2 := cy + h / 2 }

/-- One element of torchvision's `generalized_box_iou_loss` with its default
`eps = 1e-7`: `1 - (iou - (enclosing_area - union) / (enclosing_area + eps))`
where the intersection is zero unless the boxes overlap in both axes. -/
noncomputable def giouLoss (p t : BoxXYXY) : ℝ :=
  let xkis1 := max p.x1 t.x1
  let ykis1 := max p.y1 t.y1
  let xkis2 := min p.x2 t.x2
  let ykis2 := min p.y2 t.y2
  let intsctk := if ykis1 < ykis2 ∧ xkis1 < xkis2 then (xkis2 - xkis1) * (ykis2 - ykis1) else 0
  let unionk := (p.x2 - p.x1) * (p.y2 - p.y1) + (t.x2 - t.x1) * (t.y2 - t.y1) - intsctk
  let iouk := intsctk / (unionk + 1e-7)
  let areaC := (max p.x2 t.x2 - min p.x1 t.x1) * (max p.y2 t.y2 - min p.y1 t.y1)
  1 - (iouk - (areaC - unionk) / (areaC + 1e-7))

/-- One element of `F.cross_entropy` on raw logits:
`log (Σ_j exp z_j) - z_label`. -/
noncomputable def crossEntropy (numClasses : ℕ) (logits : ℕ → ℝ) (label : ℕ) : ℝ :=
  Real.log (∑ j ∈ Finset.range numClasses, Real.exp (logits j)) - logits label

/-- One assigned ground-truth entry of `calc_loss`'s parallel target
sequences: `loc` is the flattened (batch, anchor, row, col) position in the
raw output tensor, and `anchorId`, `row`, `col` are the components
`target_index[1]`, `target_index[2]`, `target_index[3]` that `pred2boxes`
reads; `label` and the corner coordinates come from `target_labels` /
`target_bboxes`. -/
structure TargetEntry (N : ℕ) where
  loc : Fin N
  anchorId : ℕ
  row : ℤ
  col : ℤ
  label : ℕ
  box : BoxXYXY

/-- The dictionary returned by `TrimNetX.calc_loss`. -/
structure LossOut where
  loss : ℝ
  confLoss : ℝ
  bboxLoss : ℝ
  clssLoss : ℝ
  sampledLoss : ℝ

/-- Embedding of `TrimNetX.calc_loss` (trimnetx.py lines 383-434).  Channel
layout of `inputs`: channels `0 .. T-1` are the confidence tries, channels
`T .. T+3` the box regression, channels `T+4 ..` the class logits.  The
confidence chain runs rounds `0 .. T-1`; box and class losses are means over
the target entries, guarded by `objects.shape[0] > 0`. -/
noncomputable def calcLoss (N T batchLen numClasses : ℕ) (cellSize : ℝ)
    (anchors : ℕ → ℝ × ℝ) (inputs : Fin N → ℕ → ℝ)
    (targets : List (TargetEntry N)) (wConf wBbox wClss : ℝ) : LossOut :=
  let targetIndex : Finset (Fin N) := (targets.map fun e => e.loc).toFinset
  let chain := confChain N T batchLen inputs targetIndex (T - 1)
  let bboxLoss :=
    if targets.isEmpty then 0
    else
      ((targets.map fun e =>
        giouLoss
          (pred2boxes cellSize anchors (inputs e.loc T) (inputs e.loc (T + 1))
            (inputs e.loc (T + 2)) (inputs e.loc (T + 3)) e.anchorId e.row e.col)
          e.box).sum) / (targets.length : ℝ)
  let clssLoss :=
    if targets.isEmpty then 0
    else
      ((targets.map fun e =>
        crossEntropy numClasses (fun j => inputs e.loc (T + 4 + j)) e.label).sum) /
        (targets.length : ℝ)
  { loss := wConf * chain.1 + wBbox * bboxLoss + wClss * clssLoss
    confLoss := chain.1
    bboxLoss := bboxLoss
    clssLoss := clssLoss
    sampledLoss := chain.2.1 }

/-- Python float modulo `a % b` (sign follows the divisor): `a - b * ⌊a / b⌋`. -/
noncomputable def fmod (a b : ℝ) : ℝ := a - b * ⌊a / b⌋

/-- `torch.clamp(x, lo, hi)`. -/
noncomputable def clampR (x lo hi : ℝ) : ℝ := min (max x lo) hi

/-- The regression-target encoding of `TrimNetX.test_target2outputs`
(trimnetx.py lines 300-325) for one box: after `box_convert` to `cxcywh`,
the center channels become
`inverse_sigmoid(clamp(center % cell_size / cell_size, eps, 1 - eps))` with
`eps = 1e-5` and `inverse_sigmoid x = log (x / (1 - x))`, and the size
channels become `log (size / anchor_size)`.  Returns `(dx, dy, dw, dh)`. -/
noncomputable def target2outputsEncode (cellSize : ℝ) (anchors : ℕ → ℝ × ℝ)
    (anchorId : ℕ) (b : BoxXYXY) : ℝ × ℝ × ℝ × ℝ :=
  let cx := (b.x1 + b.x2) / 2
  let cy := (b.y1 + b.y2) / 2
  let w := b.x2 - b.x1
  let h := b.y2 - b.y1
  let eps : ℝ := 1e-5
  let tx := clampR (fmod cx cellSize / cellSize) eps (1 - eps)
  let ty := clampR (fmod cy cellSize / cellSize) eps (1 - eps)
  (Real.log (tx / (1 - tx)), Real.log (ty / (1 - ty)),
    Real.log (w / (anchors anchorId).1), Real.log (h / (anchors anchorId).2))

/-- The per-anchor object-head output consumed by `detect`: the four box
regression channels and the class logits (`num_classes = numClasses + 1`,
kept positive so that softmax and argmax are defined as in the source). -/
structure ObjOut (numClasses : ℕ) where
  dx : ℝ
  dy : ℝ
  dw : ℝ
  dh : ℝ
  clss : Fin (numClasses + 1) → ℝ

/-- The combined try confidence of `detect` (trimnetx.py lines 242-245) at
one (anchor, row, col) slot: starts at 1, is zeroed when any try logit
before the last is negative, then multiplied by the sigmoid of the last try
logit.  `tryx` holds the `num_tries = T + 1` try channels. -/
noncomputable def pConf (T : ℕ) (tryx : Fin (T + 1) → ℝ) : ℝ :=
  (if ∀ k : Fin (T + 1), (k : ℕ) < T → 0 ≤ tryx k then (1 : ℝ) else 0) *
    sigmoid (tryx (Fin.last T))

/-- The softmax row over the class logits, as a list in class order. -/
noncomputable def softmaxList (numClasses : ℕ) (z : Fin (numClasses + 1) → ℝ) : List ℝ :=
  (List.finRange (numClasses + 1)).map fun j =>
    Real.exp (z j) / ∑ i : Fin (numClasses + 1), Real.exp (z i)

/-- `torch.softmax(...).max(dim=-1)`: the first maximal index and the
maximal value of the softmax row. -/
noncomputable def clssMax (numClasses : ℕ) (z : Fin (numClasses + 1) → ℝ) : ℕ × ℝ :=
  match argmaxPair (softmaxList numClasses z) with
  | some (i, v) => (i, v)
  | none => (0, 0)

/-- One pre-NMS detection candidate of `detect`: its combined confidence,
the decoded, unpadded, rescaled and clamped box corners (trimnetx.py lines
265-279), and the argmax class with its softmax probability. -/
structure Cand where
  conf : ℝ
  x1 : ℝ
  y1 : ℝ
  x2 : ℝ
  y2 : ℝ
  label : ℕ
  prob : ℝ

/-- Builds the candidate for a gathered (row, col) position and a surviving
anchor, from the object-head output at that position. -/
noncomputable def mkCand (numClasses : ℕ) (cellSize scale padX padY rawW rawH : ℝ)
    (anchors : ℕ → ℝ × ℝ) (conf : ℝ) (row col : ℕ) (anchorId : ℕ)
    (o : ObjOut numClasses) : Cand :=
  let cx := ((col : ℝ) + Real.tanh o.dx + 0.5) * cellSize
  let cy := ((row : ℝ) + Real.tanh o.dy + 0.5) * cellSize
  let rw := Real.exp o.dw * (anchors anchorId).1
  let rh := Real.exp o.dh * (anchors anchorId).2
  let x1 := cx - rw / 2
  let y1 := cy - rh / 2
  let x2 := x1 + rw
  let y2 := y1 + rh
  let lp := clssMax numClasses o.clss
  { conf := conf
    x1 := clampR ((x1 - padX) / scale) 0 (rawW - 1)
    y1 := clampR ((y1 - padY) / scale) 0 (rawH - 1)
    x2 := clampR ((x2 - padX) / scale) 1 rawW
    y2 := clampR ((y2 - padY) / scale) 1 rawH
    label := lp.1
    prob := lp.2 }

/-- torchvision `box_iou` of two candidates' boxes. -/
noncomputable def boxIoU (a b : Cand) : ℝ :=
  let x1 := max a.x1 b.x1
  let y1 := max a.y1 b.y1
  let x2 := min a.x2 b.x2
  let y2 := min a.y2 b.y2
  let inter := max (x2 - x1) 0 * max (y2 - y1) 0
  inter / ((a.x2 - a.x1) * (a.y2 - a.y1) + (b.x2 - b.x1) * (b.y2 - b.y1) - inter)

open Classical in
/-- Descending insertion by confidence score, for the score sort inside
torchvision `nms`. -/
noncomputable def insertByConf (a : Cand) : List Cand → List Cand
  | [] => [a]
  | b :: l => if b.conf < a.conf then a :: b :: l else b :: insertByConf a l

/-- Sorts candidates by descending confidence score. -/
noncomputable def sortByConf (l : List Cand) : List Cand := l.foldr insertByConf []

open Classical in
/-- The greedy suppression loop of torchvision `batched_nms`: keep the
highest-scoring remaining candidate, drop every remaining candidate of the
same class whose IoU with it exceeds the threshold (`batched_nms` offsets
each class's boxes into a disjoint region, so boxes of different classes
never suppress each other). -/
noncomputable def nmsLoop (iouThresh : ℝ) : List Cand → List Cand
  | [] => []
  | a :: l =>
    a :: nmsLoop iouThresh
      (l.filter fun b => decide ¬(b.label = a.label ∧ iouThresh < boxIoU a b))
termination_by l => l.length
decreasing_by
  simpa using Nat.lt_succ_of_le (List.length_filter_le _ _)

/-- Round half to even over `ℝ`: `torch.round` on one coordinate. -/
noncomputable def roundEvenR (x : ℝ) : ℝ :=
  if x - ⌊x⌋ < 1/2 then (⌊x⌋ : ℝ)
  else if 1/2 < x - ⌊x⌋ then (⌊x⌋ : ℝ) + 1
  else if ⌊x⌋ % 2 = 0 then (⌊x⌋ : ℝ) else (⌊x⌋ : ℝ) + 1

/-- Python `round(x, 5)`: round half to even at five decimal places. -/
noncomputable def round5 (x : ℝ) : ℝ := roundEvenR (x * 100000) / 100000

/-- One record of `detect`'s result list:
`dict(score=round(score.item(), 5), box=box.round().tolist(), label=label.item(),
prob=round(prob.item(), 5))`. -/
structure DetRecord where
  score : ℝ
  x1 : ℝ
  y1 : ℝ
  x2 : ℝ
  y2 : ℝ
  label : ℕ
  prob : ℝ

open Classical in
/-- Embedding of the decision pipeline of `TrimNetX.detect` (trimnetx.py
lines 219-298) after the convolutional stages, for a single image.  The try
logits `tryx` and the object head `objHead` are the network outputs at each
grid position; anchors, grid and tries are nonempty as in the model
(`num_anchors >= 1`, `num_tries >= 1`).  A cell is gathered when the
maximum combined confidence over its anchors exceeds `confThresh`
(short-circuiting to `[]` when no cell is); within gathered cells the
anchors whose combined confidence exceeds `confThresh` become candidates,
which are decoded, suppressed by class-aware NMS and emitted with the score
and probability rounded to five decimals and the box coordinates rounded to
integers. -/
noncomputable def detect (A R C T numClasses : ℕ)
    (tryx : Fin (A + 1) → Fin (R + 1) → Fin (C + 1) → Fin (T + 1) → ℝ)
    (objHead : Fin (R + 1) → Fin (C + 1) → Fin (A + 1) → ObjOut numClasses)
    (anchors : ℕ → ℝ × ℝ) (cellSize scale padX padY rawW rawH : ℝ)
    (confThresh iouThresh : ℝ) : List DetRecord :=
  let pC : Fin (A + 1) → Fin (R + 1) → Fin (C + 1) → ℝ := fun a r c => pConf T (tryx a r c)
  let cells : List (Fin (R + 1) × Fin (C + 1)) :=
    ((List.finRange (R + 1)).flatMap fun r =>
      (List.finRange (C + 1)).map fun c => (r, c)).filter fun rc =>
        decide (confThresh < Finset.univ.sup' Finset.univ_nonempty fun a => pC a rc.1 rc.2)
  if cells.isEmpty then []
  else
    let cands := cells.flatMap fun rc =>
      ((List.finRange (A + 1)).filter fun a => decide (confThresh < pC a rc.1 rc.2)).map
        fun a =>
          mkCand numClasses cellSize scale padX padY rawW rawH anchors
            (pC a rc.1 rc.2) (rc.1 : ℕ) (rc.2 : ℕ) (a : ℕ) (objHead rc.1 rc.2 a)
    (nmsLoop iouThresh (sortByConf cands)).map fun cand =>
      { score := round5 cand.conf
        x1 := roundEvenR cand.x1
        y1 := roundEvenR cand.y1
        x2 := roundEvenR cand.x2
        y2 := roundEvenR cand.y2
        label := cand.label
        prob := round5 cand.prob }

/-- Concrete per-round confidence logits for the mask-narrowing analysis:
two grid locations, location 0 the sole true positive.  Channel 0 (round 0)
scores location 1 at `-1`, channel 1 (round 1) scores location 1 at `1`. -/
noncomputable def inputsC2 : Fin 2 → ℕ → ℝ := fun i k =>
  if k = 0 then (if i = 0 then 0 else -1)
  else if k = 1 then (if i = 0 then 0 else 1)
  else 0

/-- Concrete inputs for the confidence-loss analysis: every logit zero. -/
noncomputable def inputsC3 : Fin 2 → ℕ → ℝ := fun _ _ => 0

/-- The confidence-loss formula asserted by the specification for a round in
which true positives lie inside the sample mask: the mean focal loss over
the masked samples plus the mean binary cross-entropy over the
true-positive locations, weighted by the raised cosine
`(cos(π · confId / T) + 1) / 2` and divided by
`max(1, foreground count / batch size)`.  Stated from the spec's words, to
be compared with what `focalBoost` computes. -/
noncomputable def confLossClaimFormula (N T batchLen : ℕ) (inputs : Fin N → ℕ → ℝ)
    (targetIndex : Finset (Fin N)) (m : Finset (Fin N)) (confId : ℕ) : ℝ :=
  let predConf : Fin N → ℝ := fun i => inputs i confId
  let targConf : Fin N → ℝ := fun i => if i ∈ targetIndex then 1 else 0
  let sampledLoss :=
    (m.sum fun i => sigmoidFocal (predConf i) (targConf i)) / (m.card : ℝ)
  let objMask := m ∩ targetIndex
  let objLoss :=
    (objMask.sum fun i => bceWithLogits (predConf i) (targConf i)) / (objMask.card : ℝ)
  let alpha := (Real.cos (Real.pi / (T : ℝ) * (confId : ℝ)) + 1) / 2
  sampledLoss + objLoss * alpha / max 1 ((m.sum fun i => targConf i) / (batchLen : ℝ))

theorem argmaxPair_eq_none {α : Type} [LinearOrder α] (l : List α) :
    argmaxPair l = none ↔ l = [] := by
  cases l with
  | nil => simp [argmaxPair]
  | cons x xs =>
    cases h : argmaxPair xs with
    | none => simp [argmaxPair, h]
    | some p =>
      obtain ⟨j, w⟩ := p
      simp only [argmaxPair, h]
      constructor
      · intro hc
        by_cases hcmp : w > x <;> simp [hcmp] at hc
      · intro hc
        exact absurd hc (List.cons_ne_nil x xs)

theorem argmaxPair_spec {α : Type} [LinearOrder α] :
    ∀ (l : List α) (i : ℕ) (v : α), argmaxPair l = some (i, v) →
      ∃ hi : i < l.length, l.get ⟨i, hi⟩ = v ∧
        (∀ j (hj : j < l.length), l.get ⟨j, hj⟩ ≤ v) ∧
        (∀ j (hj : j < l.length), j < i → l.get ⟨j, hj⟩ < v)
  | [], i, v, h => by simp [argmaxPair] at h
  | x :: xs, i, v, h => by
    cases hx : argmaxPair xs with
    | none =>
      have hxs : xs = [] := (argmaxPair_eq_none xs).mp hx
      subst hxs
      simp only [argmaxPair, Option.some.injEq, Prod.mk.injEq] at h
      obtain ⟨hi, hv⟩ := h
      subst hi; subst hv
      refine ⟨by simp, rfl, ?_, ?_⟩
      · intro j hj
        have hj0 : j = 0 := by simp at hj; omega
        subst hj0
        exact le_refl _
      · intro j hj hji
        omega
    | some p =>
      obtain ⟨j, w⟩ := p
      obtain ⟨hj, hget, hmax, hstrict⟩ := argmaxPair_spec xs j w hx
      rw [argmaxPair, hx] at h
      by_cases hcmp : w > x
      · simp only [hcmp, if_true, Option.some.injEq, Prod.mk.injEq] at h
        obtain ⟨hi, hv⟩ := h
        subst hv
        refine ⟨by simp [← hi]; omega, ?_, ?_, ?_⟩
        · subst hi; simpa using hget
        · intro k hk
          cases k with
          | zero => simpa using le_of_lt hcmp
          | succ kk =>
            have hkk : kk < xs.length := by simpa using hk
            simpa using hmax kk hkk
        · intro k hk hki
          cases k with
          | zero => simpa using hcmp
          | succ kk =>
            have hkk : kk < xs.length := by simpa using hk
            have : kk < j := by omega
            simpa using hstrict kk hkk this
      · simp only [hcmp, if_false, Option.some.injEq, Prod.mk.injEq] at h
        obtain ⟨hi, hv⟩ := h
        subst hv
        refine ⟨by simp [← hi], ?_, ?_, ?_⟩
        · subst hi; rfl
        · intro k hk
          cases k with
          | zero => exact le_refl _
          | succ kk =>
            have hkk : kk < xs.length := by simpa using hk
            have := hmax kk hkk
            have hwx : w ≤ x := not_lt.mp hcmp
            simpa using le_trans this hwx
        · intro k hk hki
          omega

/-- Claim C6: for every anchor set of positive (width, height) pairs and
every box with positive width and height, `_select_anchor` returns the
index of the anchor maximizing the center-matched width/height IoU, ties
broken by the first occurrence in the anchor list. -/
theorem selectAnchor_argmax (anchors : List (ℚ × ℚ)) (w h : ℚ)
    (hne : anchors ≠ [])
    (hpos : ∀ p ∈ anchors, 0 < p.1 ∧ 0 < p.2) (hw : 0 < w) (hh : 0 < h) :
    ∃ hi : selectAnchor anchors w h < anchors.length,
      (∀ j (hj : j < anchors.length),
        whIoU w h (anchors.get ⟨j, hj⟩).1 (anchors.get ⟨j, hj⟩).2 ≤
          whIoU w h (anchors.get ⟨selectAnchor anchors w h, hi⟩).1
            (anchors.get ⟨selectAnchor anchors w h, hi⟩).2) ∧
      (∀ j (hj : j < anchors.length), j < selectAnchor anchors w h →
        whIoU w h (anchors.get ⟨j, hj⟩).1 (anchors.get ⟨j, hj⟩).2 <
          whIoU w h (anchors.get ⟨selectAnchor anchors w h, hi⟩).1
            (anchors.get ⟨selectAnchor anchors w h, hi⟩).2) := by
  have hmapne : anchors.map (fun a => whIoU w h a.1 a.2) ≠ [] := by
    simpa using hne
  cases hx : argmaxPair (anchors.map fun a => whIoU w h a.1 a.2) with
  | none => exact absurd ((argmaxPair_eq_none _).mp hx) hmapne
  | some p =>
    obtain ⟨i, v⟩ := p
    obtain ⟨hi, hget, hmax, hstrict⟩ := argmaxPair_spec _ i v hx
    have hsel : selectAnchor anchors w h = i := by
      simp [selectAnchor, hx]
    have hlen : (anchors.map fun a => whIoU w h a.1 a.2).length = anchors.length :=
      List.length_map _ _
    rw [hsel]
    have hi2 : i < anchors.length := hlen ▸ hi
    refine ⟨hi2, ?_, ?_⟩
    · intro j hj
      have hj2 : j < (anchors.map fun a => whIoU w h a.1 a.2).length := hlen ▸ hj
      have := hmax j hj2
      rw [List.get_map] at this
      rw [show (⟨i, hi⟩ : Fin (anchors.map fun a => whIoU w h a.1 a.2).length) =
        Fin.cast hlen.symm ⟨i, hi2⟩ from rfl, List.get_map] at hget
      simpa [← hget] using this
    · intro j hj hji
      have hj2 : j < (anchors.map fun a => whIoU w h a.1 a.2).length := hlen ▸ hj
      have := hstrict j hj2 hji
      rw [List.get_map] at this
      rw [show (⟨i, hi⟩ : Fin (anchors.map fun a => whIoU w h a.1 a.2).length) =
        Fin.cast hlen.symm ⟨i, hi2⟩ from rfl, List.get_map] at hget
      simpa [← hget] using this

/-- Witness for claim C6: the anchor set [(32,32), (64,64)] and the box
40 × 40; the first anchor has the larger width/height IoU and is selected. -/
theorem selectAnchor_argmax_witness :
    ([((32 : ℚ), (32 : ℚ)), (64, 64)] ≠ []) ∧
    (∀ p ∈ [((32 : ℚ), (32 : ℚ)), (64, 64)], 0 < p.1 ∧ 0 < p.2) ∧
    (0 : ℚ) < 40 ∧
    (∃ hi : selectAnchor [((32 : ℚ), (32 : ℚ)), (64, 64)] 40 40 <
        [((32 : ℚ), (32 : ℚ)), (64, 64)].length,
      (∀ j (hj : j < [((32 : ℚ), (32 : ℚ)), (64, 64)].length),
        whIoU 40 40 ([((32 : ℚ), (32 : ℚ)), (64, 64)].get ⟨j, hj⟩).1
            ([((32 : ℚ), (32 : ℚ)), (64, 64)].get ⟨j, hj⟩).2 ≤
          whIoU 40 40
            ([((32 : ℚ), (32 : ℚ)), (64, 64)].get
              ⟨selectAnchor [((32 : ℚ), (32 : ℚ)), (64, 64)] 40 40, hi⟩).1
            ([((32 : ℚ), (32 : ℚ)), (64, 64)].get
              ⟨selectAnchor [((32 : ℚ), (32 : ℚ)), (64, 64)] 40 40, hi⟩).2) ∧
      (∀ j (hj : j < [((32 : ℚ), (32 : ℚ)), (64, 64)].length),
        j < selectAnchor [((32 : ℚ), (32 : ℚ)), (64, 64)] 40 40 →
        whIoU 40 40 ([((32 : ℚ), (32 : ℚ)), (64, 64)].get ⟨j, hj⟩).1
            ([((32 : ℚ), (32 : ℚ)), (64, 64)].get ⟨j, hj⟩).2 <
          whIoU 40 40
            ([((32 : ℚ), (32 : ℚ)), (64, 64)].get
              ⟨selectAnchor [((32 : ℚ), (32 : ℚ)), (64, 64)] 40 40, hi⟩).1
            ([((32 : ℚ), (32 : ℚ)), (64, 64)].get
              ⟨selectAnchor [((32 : ℚ), (32 : ℚ)), (64, 64)] 40 40, hi⟩).2)) :=
  ⟨by decide, by decide, by norm_num,
    selectAnchor_argmax [((32 : ℚ), (32 : ℚ)), (64, 64)] 40 40 (by decide)
      (by decide) (by norm_num) (by norm_num)⟩

theorem roundHalfEven_of_sub_lt (q : ℚ) (n : ℤ) (h1 : ⌊q⌋ = n) (h2 : q - n < 1/2) :
    roundHalfEven q = n := by
  rw [roundHalfEven, h1, if_pos (by exact_mod_cast h2)]

/-- Claim C4, evaluated at the failing input: with `align_size = 100` and a
200 × 200 image, the frame is 128 × 128 and the resized image is 128 × 128,
but the paste offset is computed from the un-rounded `align_size` as
`(100 - 128) // 2 = -14`, so the resized image is pasted at a negative
offset and clipped — it is not contained in the frame. -/
theorem detectPreprocess_not_contained :
    (detectPreprocess 100 200 200).aligned = 128 ∧
    (detectPreprocess 100 200 200).dstW = 128 ∧
    (detectPreprocess 100 200 200).padX = -14 ∧
    ¬ letterboxContained 100 200 200 := by
  have h1 : ((((100 + 63) / 64) * 64 : ℕ) : ℚ) = 128 := by norm_num
  have h2 : min (1:ℚ) ((128:ℚ) / ((max 200 200 : ℕ) : ℚ)) = 16/25 := by
    rw [show ((max 200 200 : ℕ) : ℚ) = 200 by norm_num]
    rw [min_eq_right (by norm_num : (128/200:ℚ) ≤ 1)]
    norm_num
  have h3 : roundHalfEven ((16/25 : ℚ) * ((200:ℕ) : ℚ)) = 128 := by
    apply roundHalfEven_of_sub_lt
    · rw [Int.floor_eq_iff]
      constructor
      · norm_num
      · norm_num
    · norm_num
  have hal : (detectPreprocess 100 200 200).aligned = 128 := by
    unfold detectPreprocess
    decide
  have hw : (detectPreprocess 100 200 200).dstW = 128 := by
    unfold detectPreprocess
    simp only [h1, h2, h3]
  have hpad : (detectPreprocess 100 200 200).padX = -14 := by
    unfold detectPreprocess
    simp only [h1, h2, h3]
    decide
  refine ⟨hal, hw, hpad, ?_⟩
  intro hcon
  unfold letterboxContained at hcon
  rw [hpad] at hcon
  exact absurd hcon.1 (by decide)

theorem truncQ_of_nonneg (q : ℚ) (h : 0 ≤ q) : truncQ q = ⌊q⌋ := if_pos h

/-- Claim C8: in `_select_row` (resp. `_select_column`), a box whose height
(resp. width) reaches twice the cell size gets the uniform jitter
`u * cell - cell / 2 ∈ [-cell/2, cell/2)` added to its center before the
integer division, while a box below that threshold gets no jitter, so its
row (resp. column) is deterministically the truncated division of the
center by the cell size — for a nonnegative center, its floor. -/
theorem selectRowColumn_jitter (u x1 y1 x2 y2 cellSize : ℚ)
    (hu0 : 0 ≤ u) (hu1 : u < 1) (hc : 0 < cellSize) :
    (y2 - y1 < 2 * cellSize →
      selectRow u y1 y2 cellSize = truncQ ((y1 + y2) * (1/2) / cellSize)) ∧
    (2 * cellSize ≤ y2 - y1 →
      selectRow u y1 y2 cellSize =
        truncQ (((y1 + y2) * (1/2) + (u * cellSize - cellSize / 2)) / cellSize) ∧
      -(cellSize / 2) ≤ u * cellSize - cellSize / 2 ∧
      u * cellSize - cellSize / 2 < cellSize / 2) ∧
    (y2 - y1 < 2 * cellSize → 0 ≤ y1 + y2 →
      selectRow u y1 y2 cellSize = ⌊(y1 + y2) * (1/2) / cellSize⌋) ∧
    (x2 - x1 < 2 * cellSize →
      selectColumn u x1 x2 cellSize = truncQ ((x1 + x2) * (1/2) / cellSize)) ∧
    (2 * cellSize ≤ x2 - x1 →
      selectColumn u x1 x2 cellSize =
        truncQ (((x1 + x2) * (1/2) + (u * cellSize - cellSize / 2)) / cellSize) ∧
      -(cellSize / 2) ≤ u * cellSize - cellSize / 2 ∧
      u * cellSize - cellSize / 2 < cellSize / 2) ∧
    (x2 - x1 < 2 * cellSize → 0 ≤ x1 + x2 →
      selectColumn u x1 x2 cellSize = ⌊(x1 + x2) * (1/2) / cellSize⌋) := by
  have hrange1 : -(cellSize / 2) ≤ u * cellSize - cellSize / 2 := by
    have : 0 ≤ u * cellSize := mul_nonneg hu0 hc.le
    linarith
  have hrange2 : u * cellSize - cellSize / 2 < cellSize / 2 := by
    have : u * cellSize < cellSize := by
      nlinarith
    linarith
  refine ⟨?_, ?_, ?_, ?_, ?_, ?_⟩
  · intro hlt
    simp only [selectRow, if_pos hlt, add_zero]
  · intro hge
    refine ⟨?_, hrange1, hrange2⟩
    simp only [selectRow, if_neg (not_lt.mpr hge)]
  · intro hlt hpos
    have hnn : 0 ≤ (y1 + y2) * (1/2) / cellSize :=
      div_nonneg (by linarith) hc.le
    simp only [selectRow, if_pos hlt, add_zero]
    exact truncQ_of_nonneg _ hnn
  · intro hlt
    simp only [selectColumn, if_pos hlt, add_zero]
  · intro hge
    refine ⟨?_, hrange1, hrange2⟩
    simp only [selectColumn, if_neg (not_lt.mpr hge)]
  · intro hlt hpos
    have hnn : 0 ≤ (x1 + x2) * (1/2) / cellSize :=
      div_nonneg (by linarith) hc.le
    simp only [selectColumn, if_pos hlt, add_zero]
    exact truncQ_of_nonneg _ hnn

/-- Witness for claim C8: an 8-px-tall box centered at 4 gets row 0 with no
jitter; a 100-px-wide box centered at 50 with the jitter draw `u = 1/2`
(zero noise) gets column 3. -/
theorem selectRowColumn_jitter_witness :
    selectRow (1/2) 0 8 16 = 0 ∧ selectColumn (1/2) 0 100 16 = 3 := by
  have h := selectRowColumn_jitter (1/2) 0 0 100 8 16 (by norm_num) (by norm_num) (by norm_num)
  constructor
  · refine (h.1 (by norm_num)).trans ?_
    rw [show ((0:ℚ) + 8) * (1/2) / 16 = 1/4 by norm_num]
    rw [truncQ, if_pos (by norm_num : (0:ℚ) ≤ 1/4)]
    rw [Int.floor_eq_iff]
    constructor
    · norm_num
    · norm_num
  · refine ((h.2.2.2.2.1 (by norm_num)).1).trans ?_
    rw [show (((0:ℚ) + 100) * (1/2) + (1/2 * 16 - 16/2)) / 16 = 25/8 by norm_num]
    rw [truncQ, if_pos (by norm_num : (0:ℚ) ≤ 25/8)]
    rw [Int.floor_eq_iff]
    constructor
    · norm_num
    · norm_num

open Classical in
theorem focalBoost_no_tp_aux (N T batchLen : ℕ) (inputs : Fin N → ℕ → ℝ)
    (ti : Finset (Fin N)) (mIn : Option (Finset (Fin N))) (cid : ℕ)
    (hdisj : mIn.getD Finset.univ ∩ ti = ∅) :
    focalBoost N T batchLen inputs ti mIn cid =
      { confLoss := ((mIn.getD Finset.univ).sum fun i =>
            sigmoidFocal (inputs i cid) (if i ∈ ti then (1:ℝ) else 0)) /
          ((mIn.getD Finset.univ).card : ℝ)
        sampledLoss := ((mIn.getD Finset.univ).sum fun i =>
            sigmoidFocal (inputs i cid) (if i ∈ ti then (1:ℝ) else 0)) /
          ((mIn.getD Finset.univ).card : ℝ)
        sampleMask := mIn.getD Finset.univ } := by
  unfold focalBoost
  simp only [hdisj, Finset.not_nonempty_empty, dif_neg, not_false_iff, zero_mul, zero_div,
    zero_add]

/-- Claim C9: if no true-positive location lies inside the given sample
mask, `focal_boost` returns its input sample mask unchanged and the
returned conf loss equals the masked focal loss alone (the auxiliary
cross-entropy term contributes exactly zero). -/
theorem focalBoost_mask_unchanged_no_tp (N T batchLen : ℕ) (inputs : Fin N → ℕ → ℝ)
    (ti : Finset (Fin N)) (m : Finset (Fin N)) (cid : ℕ)
    (hdisj : m ∩ ti = ∅) :
    (focalBoost N T batchLen inputs ti (some m) cid).sampleMask = m ∧
    (focalBoost N T batchLen inputs ti (some m) cid).confLoss =
      (focalBoost N T batchLen inputs ti (some m) cid).sampledLoss := by
  rw [focalBoost_no_tp_aux N T batchLen inputs ti (some m) cid (by simpa using hdisj)]
  exact ⟨rfl, rfl⟩

/-- Witness for claim C9: one grid location, empty target index, full
sample mask. -/
theorem focalBoost_mask_unchanged_no_tp_witness :
    (focalBoost 1 1 1 (fun _ _ => 0) ∅ (some Finset.univ) 0).sampleMask = Finset.univ ∧
    (focalBoost 1 1 1 (fun _ _ => 0) ∅ (some Finset.univ) 0).confLoss =
      (focalBoost 1 1 1 (fun _ _ => 0) ∅ (some Finset.univ) 0).sampledLoss :=
  focalBoost_mask_unchanged_no_tp 1 1 1 (fun _ _ => 0) ∅ Finset.univ 0 (by simp)

theorem confChain_empty_ti (N T batchLen : ℕ) (inputs : Fin N → ℕ → ℝ) :
    ∀ k, confChain N T batchLen inputs ∅ k =
      (∑ j ∈ Finset.range (k + 1), (∑ i : Fin N, sigmoidFocal (inputs i j) 0) / (N : ℝ),
        (∑ i : Fin N, sigmoidFocal (inputs i k) 0) / (N : ℝ),
        Finset.univ)
  | 0 => by
    rw [confChain, focalBoost_no_tp_aux N T batchLen inputs ∅ none 0 (by simp)]
    simp [Finset.sum_range_one, Finset.card_univ]
  | k + 1 => by
    rw [confChain, confChain_empty_ti N T batchLen inputs k,
      focalBoost_no_tp_aux N T batchLen inputs ∅ (some Finset.univ) (k + 1) (by simp)]
    simp only [Option.getD_some]
    simp [Finset.card_univ, Finset.sum_range_succ, add_assoc]

/-- Claim C5: on a batch with no assigned positives (`target_index` empty),
`calc_loss` returns `bbox_loss = 0` and `clss_loss = 0` exactly, and the
confidence loss is the sum over the rounds of the mean focal loss of the
round's logits against all-zero targets over the whole grid — a
well-defined real number with no division by an empty count. -/
theorem calcLoss_empty_targets (N T batchLen numClasses : ℕ) (hT : 0 < T)
    (cellSize : ℝ) (anchors : ℕ → ℝ × ℝ) (inputs : Fin N → ℕ → ℝ) (wc wb wcl : ℝ) :
    (calcLoss N T batchLen numClasses cellSize anchors inputs [] wc wb wcl).bboxLoss = 0 ∧
    (calcLoss N T batchLen numClasses cellSize anchors inputs [] wc wb wcl).clssLoss = 0 ∧
    (calcLoss N T batchLen numClasses cellSize anchors inputs [] wc wb wcl).confLoss =
      ∑ j ∈ Finset.range T, (∑ i : Fin N, sigmoidFocal (inputs i j) 0) / (N : ℝ) := by
  unfold calcLoss
  simp only [List.map_nil, List.toFinset_nil, List.isEmpty_nil, if_true]
  rw [confChain_empty_ti]
  rw [Nat.sub_add_cancel hT]
  exact ⟨trivial, trivial, rfl⟩

/-- Witness for claim C5: a single-location grid, one confidence round,
all logits zero. -/
theorem calcLoss_empty_targets_witness :
    (calcLoss 1 1 1 1 16 (fun _ => (1, 1)) (fun _ _ => 0) [] 1 1 1).bboxLoss = 0 ∧
    (calcLoss 1 1 1 1 16 (fun _ => (1, 1)) (fun _ _ => 0) [] 1 1 1).clssLoss = 0 ∧
    (calcLoss 1 1 1 1 16 (fun _ => (1, 1)) (fun _ _ => 0) [] 1 1 1).confLoss =
      ∑ j ∈ Finset.range 1, (∑ i : Fin 1, sigmoidFocal ((fun _ _ => (0:ℝ)) i j) 0) / ((1:ℕ) : ℝ) :=
  calcLoss_empty_targets 1 1 1 1 (by norm_num) 16 (fun _ => (1, 1)) (fun _ _ => 0) 1 1 1

open Classical in
theorem focalBoost_mask_mem (N T batchLen : ℕ) (inputs : Fin N → ℕ → ℝ)
    (ti : Finset (Fin N)) (mIn : Option (Finset (Fin N))) (cid : ℕ)
    (hne : (mIn.getD Finset.univ ∩ ti).Nonempty) (j : Fin N) :
    j ∈ (focalBoost N T batchLen inputs ti mIn cid).sampleMask ↔
      (mIn.getD Finset.univ ∩ ti).inf' hne (fun i => inputs i cid) ≤ inputs j cid := by
  unfold focalBoost
  simp only [dif_pos hne]
  simp [Finset.mem_filter]

theorem focalBoost_keeps_tp (N T batchLen : ℕ) (inputs : Fin N → ℕ → ℝ)
    (ti m : Finset (Fin N)) (cid : ℕ) (i : Fin N)
    (him : i ∈ m) (hit : i ∈ ti) :
    i ∈ (focalBoost N T batchLen inputs ti (some m) cid).sampleMask := by
  have hmem : i ∈ m ∩ ti := Finset.mem_inter.mpr ⟨him, hit⟩
  have hne : ((some m).getD Finset.univ ∩ ti).Nonempty := ⟨i, by simpa using hmem⟩
  rw [focalBoost_mask_mem N T batchLen inputs ti (some m) cid hne i]
  exact Finset.inf'_le _ (by simpa using hmem)

/-- Claim C2, amended: the sample mask for round `k + 1` is recomputed
globally from round `k`'s confidences, so it need not be a subset of round
`k`'s mask; what does hold is that every true-positive location inside
round `k`'s mask remains in round `k + 1`'s mask. -/
theorem confChain_keeps_tp (N T batchLen : ℕ) (inputs : Fin N → ℕ → ℝ)
    (ti : Finset (Fin N)) (k : ℕ) (i : Fin N)
    (hit : i ∈ ti) (hm : i ∈ (confChain N T batchLen inputs ti k).2.2) :
    i ∈ (confChain N T batchLen inputs ti (k + 1)).2.2 := by
  rw [confChain]
  exact focalBoost_keeps_tp N T batchLen inputs ti _ (k + 1) i hm hit

theorem inputsC2_00 : inputsC2 0 0 = 0 := by norm_num [inputsC2]

theorem inputsC2_10 : inputsC2 1 0 = -1 := by
  norm_num [inputsC2, show (1 : Fin 2) ≠ 0 from by decide]

theorem inputsC2_01 : inputsC2 0 1 = 0 := by norm_num [inputsC2]

theorem inputsC2_11 : inputsC2 1 1 = 1 := by
  norm_num [inputsC2, show (1 : Fin 2) ≠ 0 from by decide]

theorem inputsC2_mask0_mem (j : Fin 2) :
    j ∈ (confChain 2 3 1 inputsC2 {0} 0).2.2 ↔ (0 : ℝ) ≤ inputsC2 j 0 := by
  have hne : ((none : Option (Finset (Fin 2))).getD Finset.univ ∩
      ({0} : Finset (Fin 2))).Nonempty := by simp
  rw [confChain]
  rw [focalBoost_mask_mem 2 3 1 inputsC2 {0} none 0 hne j]
  have hinf : ((none : Option (Finset (Fin 2))).getD Finset.univ ∩
      ({0} : Finset (Fin 2))).inf' hne (fun i => inputsC2 i 0) = 0 := by
    have h1 : ((none : Option (Finset (Fin 2))).getD Finset.univ ∩
        ({0} : Finset (Fin 2))).inf' hne (fun i => inputsC2 i 0) ≤ inputsC2 0 0 :=
      Finset.inf'_le _ (by simp)
    rw [inputsC2_00] at h1
    refine le_antisymm h1 (Finset.le_inf' _ _ fun b hb => ?_)
    have hb0 : b = 0 := by simpa using (Finset.mem_inter.mp hb).2
    rw [hb0, inputsC2_00]
  rw [hinf]

theorem inputsC2_zero_mem_mask0 : (0 : Fin 2) ∈ (confChain 2 3 1 inputsC2 {0} 0).2.2 := by
  rw [inputsC2_mask0_mem, inputsC2_00]

/-- Claim C2 counterexample: with three confidence rounds, two grid
locations and location 0 the only true positive, the logits of
`inputsC2` put location 1 outside the mask used by round 1 (its round-0
confidence is below the true-positive minimum) but inside the mask used by
round 2 (its round-1 confidence is above it): round 2's sample mask is not
a subset of round 1's. -/
theorem confChain_mask_not_subset :
    (1 : Fin 2) ∈ (confChain 2 3 1 inputsC2 {0} 1).2.2 ∧
    (1 : Fin 2) ∉ (confChain 2 3 1 inputsC2 {0} 0).2.2 := by
  constructor
  · have h0 : (0 : Fin 2) ∈
        (some (confChain 2 3 1 inputsC2 {0} 0).2.2).getD Finset.univ ∩
          ({0} : Finset (Fin 2)) :=
      Finset.mem_inter.mpr ⟨inputsC2_zero_mem_mask0, by simp⟩
    have hne : ((some (confChain 2 3 1 inputsC2 {0} 0).2.2).getD Finset.univ ∩
        ({0} : Finset (Fin 2))).Nonempty := ⟨0, h0⟩
    rw [confChain]
    rw [focalBoost_mask_mem 2 3 1 inputsC2 {0} (some _) 1 hne 1]
    have hinf : ((some (confChain 2 3 1 inputsC2 {0} 0).2.2).getD Finset.univ ∩
        ({0} : Finset (Fin 2))).inf' hne (fun i => inputsC2 i 1) = 0 := by
      have h1 : ((some (confChain 2 3 1 inputsC2 {0} 0).2.2).getD Finset.univ ∩
          ({0} : Finset (Fin 2))).inf' hne (fun i => inputsC2 i 1) ≤ inputsC2 0 1 :=
        Finset.inf'_le _ h0
      rw [inputsC2_01] at h1
      refine le_antisymm h1 (Finset.le_inf' _ _ fun b hb => ?_)
      have hb0 : b = 0 := by simpa using (Finset.mem_inter.mp hb).2
      rw [hb0, inputsC2_01]
    rw [hinf, inputsC2_11]
    norm_num
  · rw [inputsC2_mask0_mem, inputsC2_10]
    norm_num

/-- Witness for claim C2 (amended): the true positive at location 0 lies in
round 1's mask and is kept in round 2's mask. -/
theorem confChain_keeps_tp_witness :
    (0 : Fin 2) ∈ (confChain 2 3 1 inputsC2 {0} 1).2.2 :=
  confChain_keeps_tp 2 3 1 inputsC2 {0} 0 0 (by simp) inputsC2_zero_mem_mask0

theorem sigmoid_zero : sigmoid 0 = 1/2 := by
  rw [sigmoid, neg_zero, Real.exp_zero]
  norm_num

theorem bceWithLogits_zero_one : bceWithLogits 0 1 = Real.log 2 := by
  rw [bceWithLogits, sigmoid_zero]
  rw [show (1:ℝ) - 1/2 = 1/2 by norm_num]
  rw [show (1:ℝ)/2 = 2⁻¹ by norm_num, Real.log_inv]
  ring

theorem sigmoidFocal_zero_one : sigmoidFocal 0 1 = Real.log 2 / 16 := by
  simp only [sigmoidFocal, sigmoid_zero, bceWithLogits_zero_one]
  norm_num
  ring

/-- Claim C3, evaluated at the failing input (one image, two grid
locations, both true positives, one confidence round, all logits zero, full
sample mask): the code's `num_foreground_per_img` is
`(sampled_targ.sum() / len(pred_conf)).numel()`, the element count of a
0-dimensional tensor, which is always 1 — so the auxiliary cross-entropy
term is divided by 1, not by the per-image foreground count 2 that the
claim (and the variable's name) call for. -/
theorem focalBoost_conf_loss_numel_bug :
    (focalBoost 2 1 1 inputsC3 Finset.univ none 0).confLoss
      = Real.log 2 + Real.log 2 / 16 ∧
    confLossClaimFormula 2 1 1 inputsC3 Finset.univ Finset.univ 0
      = Real.log 2 / 16 + Real.log 2 / 2 ∧
    (focalBoost 2 1 1 inputsC3 Finset.univ none 0).confLoss ≠
      confLossClaimFormula 2 1 1 inputsC3 Finset.univ Finset.univ 0 := by
  have hlog : 0 < Real.log 2 := Real.log_pos (by norm_num)
  have hsum2 : (∑ _i : Fin 2, (1:ℝ)) = 2 := by simp
  have hfb : (focalBoost 2 1 1 inputsC3 Finset.univ none 0).confLoss
      = Real.log 2 + Real.log 2 / 16 := by
    simp only [focalBoost, Option.getD_none, Finset.inter_self]
    rw [dif_pos (Finset.univ_nonempty : (Finset.univ : Finset (Fin 2)).Nonempty)]
    simp only [Finset.mem_univ, if_true, inputsC3, scalarNumel, Finset.card_univ,
      Fintype.card_fin]
    rw [bceWithLogits_zero_one, sigmoidFocal_zero_one]
    simp only [Finset.sum_const, Finset.card_univ, Fintype.card_fin, nsmul_eq_mul]
    norm_num [Real.cos_zero]
  have hcf : confLossClaimFormula 2 1 1 inputsC3 Finset.univ Finset.univ 0
      = Real.log 2 / 16 + Real.log 2 / 2 := by
    simp only [confLossClaimFormula, Finset.inter_self, Finset.mem_univ, if_true, inputsC3,
      Finset.card_univ, Fintype.card_fin]
    rw [bceWithLogits_zero_one, sigmoidFocal_zero_one]
    simp only [Finset.sum_const, Finset.card_univ, Fintype.card_fin, nsmul_eq_mul]
    rw [show ((2:ℕ) * (1:ℝ)) / ((1:ℕ) : ℝ) = 2 by norm_num]
    rw [max_eq_right (by norm_num : (1:ℝ) ≤ 2)]
    norm_num [Real.cos_zero]
  refine ⟨hfb, hcf, ?_⟩
  rw [hfb, hcf]
  intro h
  linarith

theorem tanh_log_third : Real.tanh (Real.log (1/3)) = -(4/5) := by
  rw [Real.tanh_eq_sinh_div_cosh, Real.sinh_eq, Real.cosh_eq]
  rw [Real.exp_neg, Real.exp_log (by norm_num : (0:ℝ) < 1/3)]
  norm_num

theorem target2outputsEncode_eval :
    target2outputsEncode 16 (fun _ => ((8:ℝ), (8:ℝ))) 0 ⟨0, 0, 8, 8⟩ =
      (Real.log (1/3), Real.log (1/3), 0, 0) := by
  have hfloor : ⌊((0:ℝ) + 8) / 2 / 16⌋ = 0 := by
    rw [Int.floor_eq_zero_iff]
    constructor
    · norm_num
    · norm_num
  have hclamp : clampR (((0:ℝ) + 8) / 2 / 16) 1e-5 (1 - 1e-5) = 1/4 := by
    rw [clampR, max_eq_left (by norm_num : (1e-5:ℝ) ≤ (0 + 8) / 2 / 16),
      min_eq_left (by norm_num : ((0:ℝ) + 8) / 2 / 16 ≤ 1 - 1e-5)]
    norm_num
  simp only [target2outputsEncode, fmod, hfloor]
  rw [show (16:ℝ) * ((0:ℤ):ℝ) = 0 by norm_num]
  rw [show ((0:ℝ) + 8) / 2 - 0 = (0 + 8) / 2 by ring]
  rw [hclamp]
  rw [show (1:ℝ) - 1/4 = 3/4 by norm_num]
  rw [show (1:ℝ)/4 / (3/4) = 1/3 by norm_num]
  rw [show (8:ℝ) - 0 = 8 by norm_num]
  rw [show (8:ℝ) / 8 = 1 by norm_num]
  rw [Real.log_one]

/-- Claim C1, evaluated at the failing input: the box (0, 0, 8, 8) with
anchor (8, 8) assigned to cell (row, col) = (0, 0) at cell size 16 has
center fraction 1/4 (no clamping, no jitter); `test_target2outputs` encodes
the x offset as `log((1/4)/(3/4)) = log(1/3)` (inverse sigmoid) but
`pred2boxes` decodes it through `tanh`, and `tanh(log(1/3)) = -4/5`, so the
decoded box is (-44/5, -44/5, -4/5, -4/5) — not the original box: the
encode rule of `test_target2outputs` and the decode rule of `pred2boxes`
are not mutually inverse. -/
theorem encode_decode_roundtrip_fails :
    pred2boxes 16 (fun _ => ((8:ℝ), (8:ℝ)))
        (target2outputsEncode 16 (fun _ => ((8:ℝ), (8:ℝ))) 0 ⟨0, 0, 8, 8⟩).1
        (target2outputsEncode 16 (fun _ => ((8:ℝ), (8:ℝ))) 0 ⟨0, 0, 8, 8⟩).2.1
        (target2outputsEncode 16 (fun _ => ((8:ℝ), (8:ℝ))) 0 ⟨0, 0, 8, 8⟩).2.2.1
        (target2outputsEncode 16 (fun _ => ((8:ℝ), (8:ℝ))) 0 ⟨0, 0, 8, 8⟩).2.2.2
        0 0 0 =
      ⟨-(44/5), -(44/5), -(4/5), -(4/5)⟩ ∧
    pred2boxes 16 (fun _ => ((8:ℝ), (8:ℝ)))
        (target2outputsEncode 16 (fun _ => ((8:ℝ), (8:ℝ))) 0 ⟨0, 0, 8, 8⟩).1
        (target2outputsEncode 16 (fun _ => ((8:ℝ), (8:ℝ))) 0 ⟨0, 0, 8, 8⟩).2.1
        (target2outputsEncode 16 (fun _ => ((8:ℝ), (8:ℝ))) 0 ⟨0, 0, 8, 8⟩).2.2.1
        (target2outputsEncode 16 (fun _ => ((8:ℝ), (8:ℝ))) 0 ⟨0, 0, 8, 8⟩).2.2.2
        0 0 0 ≠
      (⟨0, 0, 8, 8⟩ : BoxXYXY) := by
  have heq : pred2boxes 16 (fun _ => ((8:ℝ), (8:ℝ)))
      (target2outputsEncode 16 (fun _ => ((8:ℝ), (8:ℝ))) 0 ⟨0, 0, 8, 8⟩).1
      (target2outputsEncode 16 (fun _ => ((8:ℝ), (8:ℝ))) 0 ⟨0, 0, 8, 8⟩).2.1
      (target2outputsEncode 16 (fun _ => ((8:ℝ), (8:ℝ))) 0 ⟨0, 0, 8, 8⟩).2.2.1
      (target2outputsEncode 16 (fun _ => ((8:ℝ), (8:ℝ))) 0 ⟨0, 0, 8, 8⟩).2.2.2
      0 0 0 = ⟨-(44/5), -(44/5), -(4/5), -(4/5)⟩ := by
    rw [target2outputsEncode_eval]
    simp only [pred2boxes, tanh_log_third, Real.exp_zero]
    rw [show ((0:ℤ):ℝ) = 0 by norm_num]
    simp only [BoxXYXY.mk.injEq]
    norm_num
  refine ⟨heq, ?_⟩
  rw [heq]
  intro hcon
  have := congrArg BoxXYXY.x1 hcon
  norm_num at this

theorem sigmoid_pos (x : ℝ) : 0 < sigmoid x := by
  rw [sigmoid]
  positivity

theorem sigmoid_lt_one (x : ℝ) : sigmoid x < 1 := by
  rw [sigmoid, div_lt_one (by positivity)]
  have := Real.exp_pos (-x)
  linarith

theorem pConf_le_one (T : ℕ) (tryx : Fin (T + 1) → ℝ) : pConf T tryx ≤ 1 := by
  rw [pConf]
  split
  · simpa using (sigmoid_lt_one _).le
  · simp

theorem pConf_nonneg (T : ℕ) (tryx : Fin (T + 1) → ℝ) : 0 ≤ pConf T tryx := by
  rw [pConf]
  split
  · simpa using (sigmoid_pos _).le
  · simp

/-- Claim C7: `detect` returns an empty list whenever no (anchor, row, col)
slot's combined confidence exceeds `conf_thresh` (so no grid cell's maximum
over anchors exceeds it; the short-circuit fires before the object head is
consulted), and in particular for any threshold at least 1, such as 1.01,
since the combined confidence `p_conf` is at most 1. -/
theorem detect_empty_of_high_thresh (A R C T numClasses : ℕ)
    (tryx : Fin (A + 1) → Fin (R + 1) → Fin (C + 1) → Fin (T + 1) → ℝ)
    (objHead : Fin (R + 1) → Fin (C + 1) → Fin (A + 1) → ObjOut numClasses)
    (anchors : ℕ → ℝ × ℝ) (cellSize scale padX padY rawW rawH confThresh iouThresh : ℝ) :
    ((∀ a r c, pConf T (tryx a r c) ≤ confThresh) →
      detect A R C T numClasses tryx objHead anchors cellSize scale padX padY rawW rawH
        confThresh iouThresh = []) ∧
    (1 ≤ confThresh →
      detect A R C T numClasses tryx objHead anchors cellSize scale padX padY rawW rawH
        confThresh iouThresh = []) := by
  have hmain : (∀ a r c, pConf T (tryx a r c) ≤ confThresh) →
      detect A R C T numClasses tryx objHead anchors cellSize scale padX padY rawW rawH
        confThresh iouThresh = [] := by
    intro h
    simp only [detect]
    rw [List.filter_eq_nil.mpr ?hpred]
    · simp
    case hpred =>
      intro rc _
      simp only [decide_eq_true_eq, not_lt]
      exact Finset.sup'_le _ _ fun a _ => h a rc.1 rc.2
  refine ⟨hmain, fun h1 => hmain fun a r c => le_trans (pConf_le_one T (tryx a r c)) h1⟩

/-- Witness for claim C7: a 1 × 1 grid with one anchor and one try, all
logits zero, threshold 1.01. -/
theorem detect_empty_of_high_thresh_witness :
    detect 0 0 0 0 0 (fun _ _ _ _ => 0) (fun _ _ _ => ⟨0, 0, 0, 0, fun _ => 0⟩)
      (fun _ => (1, 1)) 16 1 0 0 1 1 (101/100) (11/20) = [] :=
  (detect_empty_of_high_thresh 0 0 0 0 0 (fun _ _ _ _ => 0)
    (fun _ _ _ => ⟨0, 0, 0, 0, fun _ => 0⟩) (fun _ => (1, 1)) 16 1 0 0 1 1 (101/100)
    (11/20)).2 (by norm_num)

theorem mem_insertByConf (a x : Cand) (l : List Cand) :
    x ∈ insertByConf a l ↔ x = a ∨ x ∈ l := by
  induction l with
  | nil => simp [insertByConf]
  | cons b bs ih =>
    rw [insertByConf]
    split
    · simp [List.mem_cons]
    · simp only [List.mem_cons, ih]
      tauto

theorem mem_sortByConf (x : Cand) (l : List Cand) : x ∈ sortByConf l ↔ x ∈ l := by
  induction l with
  | nil => simp [sortByConf]
  | cons b bs ih =>
    rw [show sortByConf (b :: bs) = insertByConf b (sortByConf bs) from rfl,
      mem_insertByConf, ih]
    simp [List.mem_cons]

theorem mem_of_mem_nmsLoop (t : ℝ) :
    ∀ (n : ℕ) (l : List Cand), l.length ≤ n → ∀ x ∈ nmsLoop t l, x ∈ l
  | 0, l, hl, x, hx => by
    have hnil : l = [] := List.length_eq_zero.mp (Nat.le_zero.mp hl)
    subst hnil
    simpa [nmsLoop] using hx
  | n + 1, l, hl, x, hx => by
    cases l with
    | nil => simpa [nmsLoop] using hx
    | cons a rest =>
      rw [nmsLoop] at hx
      rcases List.mem_cons.mp hx with hxa | hxr
      · exact hxa ▸ List.mem_cons_self _ _
      · have hless : (rest.filter fun b =>
            decide ¬(b.label = a.label ∧ t < boxIoU a b)).length ≤ n :=
          le_trans (List.length_filter_le _ _) (by simpa using hl)
        have hrec := mem_of_mem_nmsLoop t n _ hless x hxr
        exact List.mem_cons_of_mem _ (List.mem_of_mem_filter hrec)

theorem nmsLoop_subset (t : ℝ) (l : List Cand) (x : Cand) (hx : x ∈ nmsLoop t l) :
    x ∈ l :=
  mem_of_mem_nmsLoop t l.length l le_rfl x hx

theorem softmaxList_mem_bounds (n : ℕ) (z : Fin (n + 1) → ℝ) (v : ℝ)
    (hv : v ∈ softmaxList n z) : 0 ≤ v ∧ v ≤ 1 := by
  rw [softmaxList] at hv
  obtain ⟨j, _, rfl⟩ := List.mem_map.mp hv
  have hS : 0 < ∑ i : Fin (n + 1), Real.exp (z i) :=
    Finset.sum_pos (fun i _ => Real.exp_pos _) Finset.univ_nonempty
  constructor
  · positivity
  · rw [div_le_one hS]
    exact Finset.single_le_sum (fun i _ => (Real.exp_pos (z i)).le) (Finset.mem_univ j)

theorem clssMax_prob_bounds (n : ℕ) (z : Fin (n + 1) → ℝ) :
    0 ≤ (clssMax n z).2 ∧ (clssMax n z).2 ≤ 1 := by
  cases hx : argmaxPair (softmaxList n z) with
  | none =>
    exfalso
    have hnil := (argmaxPair_eq_none _).mp hx
    have hlen : (softmaxList n z).length = n + 1 := by simp [softmaxList]
    rw [hnil] at hlen
    simp at hlen
  | some p =>
    obtain ⟨i, v⟩ := p
    obtain ⟨hi, hget, _, _⟩ := argmaxPair_spec _ i v hx
    have hv : (clssMax n z).2 = v := by simp [clssMax, hx]
    have hmem : v ∈ softmaxList n z := hget ▸ List.get_mem _ _ hi
    rw [hv]
    exact softmaxList_mem_bounds n z v hmem

theorem roundEvenR_nonneg (x : ℝ) (h : 0 ≤ x) : 0 ≤ roundEvenR x := by
  have h0 : (0:ℤ) ≤ ⌊x⌋ := Int.floor_nonneg.mpr h
  rw [roundEvenR]
  split
  · exact_mod_cast h0
  · split
    · push_cast
      exact_mod_cast by linarith
    · split
      · exact_mod_cast h0
      · push_cast
        exact_mod_cast by linarith

theorem roundEvenR_le_intCast (x : ℝ) (n : ℤ) (h : x ≤ n) : roundEvenR x ≤ (n : ℝ) := by
  have hfl : ⌊x⌋ ≤ n := by
    calc ⌊x⌋ ≤ ⌊(n:ℝ)⌋ := Int.floor_le_floor h
    _ = n := Int.floor_intCast n
  have hsucc : x - ⌊x⌋ > 0 → ⌊x⌋ + 1 ≤ n := by
    intro hfrac
    rcases lt_or_eq_of_le hfl with hlt | heq
    · omega
    · exfalso
      rw [heq] at hfrac
      have := Int.floor_le x
      rw [heq] at this
      linarith
  rw [roundEvenR]
  split
  · exact_mod_cast hfl
  · split
    · have : ⌊x⌋ + 1 ≤ n := hsucc (by linarith)
      push_cast
      exact_mod_cast this
    · split
      · exact_mod_cast hfl
      · have : ⌊x⌋ + 1 ≤ n := hsucc (by linarith)
        push_cast
        exact_mod_cast this

theorem round5_mem_unit (x : ℝ) (h0 : 0 ≤ x) (h1 : x ≤ 1) :
    0 ≤ round5 x ∧ round5 x ≤ 1 := by
  constructor
  · exact div_nonneg (roundEvenR_nonneg _ (by linarith)) (by norm_num)
  · rw [round5, div_le_one (by norm_num : (0:ℝ) < 100000)]
    have := roundEvenR_le_intCast (x * 100000) 100000 (by push_cast; linarith)
    exact_mod_cast this

/-- Claim C10: every record returned by `detect` has an underlying combined
confidence — `p_conf`, the product of the earlier-try pass indicator and
the sigmoid of the last try logit at some (anchor, row, col) slot — that is
strictly greater than `conf_thresh` and at most 1; the reported score field
is that confidence rounded to five decimal places, and the prob field lies
in [0, 1]. -/
theorem detect_record_fields (A R C T numClasses : ℕ)
    (tryx : Fin (A + 1) → Fin (R + 1) → Fin (C + 1) → Fin (T + 1) → ℝ)
    (objHead : Fin (R + 1) → Fin (C + 1) → Fin (A + 1) → ObjOut numClasses)
    (anchors : ℕ → ℝ × ℝ) (cellSize scale padX padY rawW rawH confThresh iouThresh : ℝ) :
    List.Forall (fun d =>
      (∃ a r c, confThresh < pConf T (tryx a r c) ∧ pConf T (tryx a r c) ≤ 1 ∧
        d.score = round5 (pConf T (tryx a r c))) ∧
      0 ≤ d.prob ∧ d.prob ≤ 1)
      (detect A R C T numClasses tryx objHead anchors cellSize scale padX padY rawW rawH
        confThresh iouThresh) := by
  rw [List.forall_iff_forall_mem]
  intro d hd
  simp only [detect] at hd
  split at hd
  · simp at hd
  · obtain ⟨cand, hcand, rfl⟩ := List.mem_map.mp hd
    have h1 : cand ∈ sortByConf _ := nmsLoop_subset _ _ cand hcand
    rw [mem_sortByConf] at h1
    obtain ⟨rc, _, hmem2⟩ := List.mem_flatMap.mp h1
    obtain ⟨a, ha, rfl⟩ := List.mem_map.mp hmem2
    have hconf : confThresh < pConf T (tryx a rc.1 rc.2) := by
      have := (List.mem_filter.mp ha).2
      simpa [decide_eq_true_eq] using this
    refine ⟨⟨a, rc.1, rc.2, hconf, pConf_le_one T (tryx a rc.1 rc.2), rfl⟩, ?_⟩
    have hb := clssMax_prob_bounds numClasses (objHead rc.1 rc.2 a).clss
    exact round5_mem_unit _ hb.1 hb.2

end TrimNetX
